import Mathlib

/-!
Verification of the similarity-graph construction and connected-component
clustering engine of the freelancer-analysis repository
(`part1/src/algorithms.rs`), as a shallow embedding in Lean.

The embedding follows the Rust source:
* `Freelancer` mirrors `struct Freelancer` from `data_loader.rs`; the two
  `f32` performance fields are modelled as exact rationals — they are never
  read by any function verified here.
* `shared_attributes` mirrors the sequential weight accumulation of the Rust
  function, with the `f32` arithmetic modelled exactly over `ℚ`.  The code
  only ever compares subset-sums of {0.3, 0.25, 0.25, 0.2} with the literal
  0.7; evaluating the Rust `f32` additions exactly (round-to-nearest on each
  step) shows every such sum lands on the same side of the `0.7f32` literal
  as the exact rational sum does of 7/10 — in particular
  `0.25f32 + 0.25f32 + 0.2f32` rounds to exactly the `f32` literal `0.7`,
  so the strict comparison is false there, just as `7/10 > 7/10` is — hence
  the rational embedding decides every threshold test as the source does.
* `build_collaboration_graph` mirrors the double indexed loop; `pushAt`
  models `adj_list[k].push(v)` on the vector of vectors.
* `scanNeighbors`, `bfs` and `ccLoop` decompose the imperative BFS of
  `find_connected_components`: `scanNeighbors` is the inner `for &neighbor`
  loop (the `Except` error models the Rust bounds-check panic raised by
  `visited[neighbor]` on an out-of-range index), `bfs` the `while let` loop,
  `ccLoop` the outer `for node` loop.
-/

/-- Mirrors `struct Freelancer` (`data_loader.rs`).  `earnings_usd` and
`hourly_rate` are `f32` in the source; their values never flow into the
clustering core, so they are carried here as exact rationals. -/
structure Freelancer where
  id : Nat
  job_category : String
  platform : String
  client_region : String
  experience_level : String
  earnings_usd : ℚ
  hourly_rate : ℚ
deriving Repr, DecidableEq, Inhabited

/-- Mirrors `shared_attributes` (`algorithms.rs` lines 62-69): sequential
accumulation of the weight of each string-equal attribute. -/
def shared_attributes (a b : Freelancer) : ℚ :=
  let count : ℚ := 0
  let count := if a.job_category = b.job_category then count + 0.3 else count
  let count := if a.platform = b.platform then count + 0.25 else count
  let count := if a.client_region = b.client_region then count + 0.25 else count
  let count := if a.experience_level = b.experience_level then count + 0.2 else count
  count

/-- Models `adj_list[k].push(v)` on a `Vec<Vec<usize>>`. -/
def pushAt (adj : List (List Nat)) (k v : Nat) : List (List Nat) :=
  adj.set k (adj.getD k [] ++ [v])

/-- Mirrors `build_collaboration_graph` (`algorithms.rs` lines 42-55): for
every `i`, for every `j` in `(i+1)..n`, if the similarity score is strictly
above `0.7`, push `j` onto list `i` and `i` onto list `j`. -/
def build_collaboration_graph (freelancers : List Freelancer) : List (List Nat) :=
  let n := freelancers.length
  (List.range n).foldl
    (fun adj i =>
      (List.range' (i + 1) (n - (i + 1))).foldl
        (fun adj j =>
          if shared_attributes (freelancers.getD i default) (freelancers.getD j default) > 0.7 then
            pushAt (pushAt adj i j) j i
          else adj)
        adj)
    (List.replicate n [])

/-- Reads the visited marker of node `j` (`visited[neighbor]` in the source
reads a `Vec<bool>`; out-of-range reads are modelled separately, see
`scanNeighbors`). -/
def visAt (v : List Bool) (j : Nat) : Bool :=
  v.getD j false

/-- Mirrors the inner loop `for &neighbor in &adj_list[current]` of
`find_connected_components`: each unvisited neighbour is marked visited and
pushed on the back of the queue.  The Rust read `visited[neighbor]` panics
when `neighbor` is out of range; that abort is modelled as the `Except`
error. -/
def scanNeighbors : List Nat → List Bool → List Nat → Except String (List Bool × List Nat)
  | [], visited, queue => .ok (visited, queue)
  | neighbor :: rest, visited, queue =>
    if neighbor < visited.length then
      if visAt visited neighbor then
        scanNeighbors rest visited queue
      else
        scanNeighbors rest (visited.set neighbor true) (queue ++ [neighbor])
    else
      .error "index out of bounds"

theorem visAt_lt {v : List Bool} {j : Nat} (h : visAt v j = true) : j < v.length := by
  by_contra hj
  have hd : visAt v j = false := List.getD_eq_default _ _ (Nat.le_of_not_lt hj)
  rw [h] at hd
  exact absurd hd (by decide)

theorem visAt_set_self {v : List Bool} {i : Nat} (h : i < v.length) :
    visAt (v.set i true) i = true := by
  simp [visAt, List.getD_eq_getElem?_getD, List.getElem?_set_self h]

theorem visAt_set_ne {v : List Bool} {i j : Nat} (b : Bool) (h : i ≠ j) :
    visAt (v.set i b) j = visAt v j := by
  simp [visAt, List.getD_eq_getElem?_getD, List.getElem?_set_ne h]

theorem visAt_replicate (n j : Nat) : visAt (List.replicate n false) j = false := by
  induction n generalizing j with
  | zero => cases j <;> rfl
  | succ m ih =>
    cases j with
    | zero => rfl
    | succ i =>
      have : visAt (List.replicate (m + 1) false) (i + 1) = visAt (List.replicate m false) i := by
        simp [visAt, List.replicate_succ]
      rw [this, ih]

theorem count_false_set {v : List Bool} {i : Nat} (h : i < v.length)
    (hv : visAt v i = false) : v.count false = (v.set i true).count false + 1 := by
  induction v generalizing i with
  | nil => simp at h
  | cons b t ih =>
    cases i with
    | zero =>
      have hb : b = false := by simpa [visAt] using hv
      subst hb
      simp [List.count_cons]
    | succ m =>
      have hm : m < t.length := by simpa using h
      have hv' : visAt t m = false := by simpa [visAt] using hv
      have hrec := ih hm hv'
      simp only [List.set_cons_succ, List.count_cons, hrec]
      omega

/-- Full description of a successful neighbour scan: the queue grows by a
duplicate-free block `fresh` of previously unvisited neighbours, exactly
those get marked, and one `false` marker is consumed per fresh node. -/
theorem scanNeighbors_ok {ns : List Nat} {v : List Bool} {q : List Nat}
    {v' : List Bool} {q' : List Nat}
    (h : scanNeighbors ns v q = .ok (v', q')) :
    v'.length = v.length ∧ (∀ x ∈ ns, x < v.length) ∧
      ∃ fresh, q' = q ++ fresh ∧ fresh.Nodup ∧
        (∀ j ∈ fresh, j ∈ ns ∧ visAt v j = false) ∧
        (∀ j, visAt v' j = true ↔ (visAt v j = true ∨ j ∈ fresh)) ∧
        (∀ j ∈ ns, visAt v' j = true) ∧
        v.count false = v'.count false + fresh.length := by
  induction ns generalizing v q with
  | nil =>
    simp only [scanNeighbors] at h
    obtain ⟨hv, hq⟩ : v = v' ∧ q = q' := by
      constructor <;> [exact congrArg Prod.fst (Except.ok.inj h);
        exact congrArg Prod.snd (Except.ok.inj h)]
    subst hv; subst hq
    exact ⟨rfl, by simp, [], by simp, List.nodup_nil, by simp, by simp, by simp, by simp⟩
  | cons neighbor rest ih =>
    simp only [scanNeighbors] at h
    by_cases hlt : neighbor < v.length
    · rw [if_pos hlt] at h
      by_cases hvis : visAt v neighbor = true
      · rw [if_pos hvis] at h
        obtain ⟨hlen, hns, fresh, hq', hnd, hmem, hiff, hall, hcount⟩ := ih h
        refine ⟨hlen, ?_, fresh, hq', hnd, ?_, hiff, ?_, hcount⟩
        · intro x hx
          rcases List.mem_cons.1 hx with rfl | hx
          · exact hlt
          · exact hns x hx
        · intro j hj
          obtain ⟨hj1, hj2⟩ := hmem j hj
          exact ⟨List.mem_cons_of_mem _ hj1, hj2⟩
        · intro j hj
          rcases List.mem_cons.1 hj with rfl | hj
          · exact (hiff j).2 (Or.inl hvis)
          · exact hall j hj
      · rw [if_neg hvis] at h
        have hvfalse : visAt v neighbor = false := by
          cases hb : visAt v neighbor
          · rfl
          · exact absurd hb hvis
        obtain ⟨hlen, hns, fresh, hq', hnd, hmem, hiff, hall, hcount⟩ := ih h
        have hlenset : (v.set neighbor true).length = v.length := List.length_set ..
        refine ⟨hlen.trans hlenset, ?_, neighbor :: fresh, ?_, ?_, ?_, ?_, ?_, ?_⟩
        · intro x hx
          rcases List.mem_cons.1 hx with rfl | hx
          · exact hlt
          · exact hlenset ▸ hns x hx
        · simpa [List.append_assoc] using hq'
        · refine List.Nodup.cons ?_ hnd
          intro hmem'
          have hcon := (hmem neighbor hmem').2
          rw [visAt_set_self hlt] at hcon
          exact absurd hcon (by decide)
        · intro j hj
          rcases List.mem_cons.1 hj with rfl | hj
          · exact ⟨List.mem_cons_self .., hvfalse⟩
          · obtain ⟨hj1, hj2⟩ := hmem j hj
            refine ⟨List.mem_cons_of_mem _ hj1, ?_⟩
            by_cases hne : neighbor = j
            · subst hne
              rw [visAt_set_self hlt] at hj2
              exact absurd hj2 (by decide)
            · rwa [visAt_set_ne true hne] at hj2
        · intro j
          rw [hiff j]
          by_cases hne : neighbor = j
          · subst hne
            simp [visAt_set_self hlt]
          · rw [visAt_set_ne true hne]
            constructor
            · rintro (hl | hl)
              · exact Or.inl hl
              · exact Or.inr (List.mem_cons_of_mem _ hl)
            · rintro (hl | hl)
              · exact Or.inl hl
              · rcases List.mem_cons.1 hl with hl | hl
                · exact absurd hl.symm hne
                · exact Or.inr hl
        · intro j hj
          rcases List.mem_cons.1 hj with rfl | hj
          · exact (hiff j).2 (Or.inl (visAt_set_self hlt))
          · exact hall j hj
        · have hstep : v.count false = (v.set neighbor true).count false + 1 :=
            count_false_set hlt hvfalse
          rw [hstep, hcount]
          simp only [List.length_cons]
          omega
    · rw [if_neg hlt] at h
      exact absurd h (by simp)

/-- Mirrors the `while let Some(current) = queue.pop_front()` loop of
`find_connected_components` (`algorithms.rs` lines 22-30): pop the front of
the queue, append it to the cluster, scan its neighbour list.  Terminates
because every loop iteration consumes either one queued node or (per fresh
push) one `false` visited marker. -/
def bfs (adj : List (List Nat)) : List Bool → List Nat → List Nat →
    Except String (List Nat × List Bool)
  | visited, [], cluster => .ok (cluster, visited)
  | visited, current :: rest, cluster =>
    match hscan : scanNeighbors (adj.getD current []) visited rest with
    | .error e => .error e
    | .ok (v', q') => bfs adj v' q' (cluster ++ [current])
termination_by visited queue _ => visited.count false + queue.length
decreasing_by
  obtain ⟨hlen, hns, fresh, hq', hnd, hmem, hiff, hall, hcount⟩ := scanNeighbors_ok hscan
  subst hq'
  simp only [List.length_append, List.length_cons]
  omega

/-- Mirrors the outer `for node in 0..adj_list.len()` loop of
`find_connected_components`: each still-unvisited node seeds a BFS whose
resulting cluster is appended to the cluster list. -/
def ccLoop (adj : List (List Nat)) : List Nat → List Bool → List (List Nat) →
    Except String (List (List Nat))
  | [], _, clusters => .ok clusters
  | node :: rest, visited, clusters =>
    if visAt visited node then
      ccLoop adj rest visited clusters
    else
      match bfs adj (visited.set node true) [node] [] with
      | .error e => .error e
      | .ok (cluster, visited') => ccLoop adj rest visited' (clusters ++ [cluster])

/-- Mirrors `find_connected_components` (`algorithms.rs` lines 11-35). -/
def find_connected_components (adj_list : List (List Nat)) :
    Except String (List (List Nat)) :=
  ccLoop adj_list (List.range adj_list.length)
    (List.replicate adj_list.length false) []

/-- One directed step through the adjacency structure: `b` occurs in the
neighbour list of `a`. -/
def adjStep (adj : List (List Nat)) (a b : Nat) : Prop :=
  b ∈ adj.getD a []

theorem getD_mem_of_lt {α : Type} (l : List α) (d : α) {i : Nat} (h : i < l.length) :
    l.getD i d ∈ l := by
  rw [List.getD_eq_getElem _ _ h]
  exact List.getElem_mem h

theorem scanNeighbors_total (ns : List Nat) (v : List Bool) (q : List Nat)
    (h : ∀ x ∈ ns, x < v.length) :
    ∃ v' q', scanNeighbors ns v q = .ok (v', q') := by
  induction ns generalizing v q with
  | nil => exact ⟨v, q, rfl⟩
  | cons neighbor rest ih =>
    have hlt : neighbor < v.length := h neighbor (List.mem_cons_self ..)
    have hrest : ∀ x ∈ rest, x < v.length := fun x hx => h x (List.mem_cons_of_mem _ hx)
    rw [scanNeighbors, if_pos hlt]
    by_cases hvis : visAt v neighbor = true
    · rw [if_pos hvis]
      exact ih v q hrest
    · rw [if_neg hvis]
      exact ih (v.set neighbor true) (q ++ [neighbor])
        (fun x hx => (List.length_set ..).symm ▸ hrest x hx)

theorem bfs_cons_ok (adj : List (List Nat)) {v : List Bool} {cur : Nat}
    {rest cl : List Nat} {v₁ : List Bool} {q₁ : List Nat}
    (hscan : scanNeighbors (adj.getD cur []) v rest = .ok (v₁, q₁)) :
    bfs adj v (cur :: rest) cl = bfs adj v₁ q₁ (cl ++ [cur]) := by
  rw [bfs.eq_2]
  split
  · rename_i e heq
    rw [hscan] at heq
    simp at heq
  · rename_i v₂ q₂ heq
    rw [hscan] at heq
    obtain ⟨rfl, rfl⟩ : v₂ = v₁ ∧ q₂ = q₁ := by simpa using heq.symm
    rfl

theorem bfs_cons_err (adj : List (List Nat)) {v : List Bool} {cur : Nat}
    {rest cl : List Nat} {e : String}
    (hscan : scanNeighbors (adj.getD cur []) v rest = .error e) :
    bfs adj v (cur :: rest) cl = .error e := by
  rw [bfs.eq_2]
  split
  · rename_i e2 heq
    rw [hscan] at heq
    obtain rfl : e2 = e := by simpa using heq.symm
    rfl
  · rename_i v₂ q₂ heq
    rw [hscan] at heq
    simp at heq

/-- Everything a successful BFS run guarantees, relative to its starting
state: the cluster grows by a block `cl₂` that absorbs the whole queue,
consists of in-range nodes whose neighbour lists were fully scanned, is
duplicate-free, marks exactly the nodes newly visited, is reachable from the
queue, starts with the front of the queue, and leaves the visited set closed
under adjacency provided it was closed up to queue membership before. -/
theorem bfs_spec (adj : List (List Nat)) (v : List Bool) (q cl : List Nat) :
    ∀ res v', bfs adj v q cl = .ok (res, v') →
      (∀ x ∈ q, visAt v x = true) → q.Nodup →
      ∃ cl₂, res = cl ++ cl₂ ∧
        v'.length = v.length ∧
        (∀ x ∈ q, x ∈ cl₂) ∧
        (∀ j ∈ cl₂, ∀ x ∈ adj.getD j [], x < v.length) ∧
        (∀ j, visAt v' j = true ↔ (visAt v j = true ∨ j ∈ cl₂)) ∧
        (∀ j ∈ cl₂, j ∈ q ∨ visAt v j = false) ∧
        cl₂.Nodup ∧
        (∀ j ∈ cl₂, ∃ s ∈ q, Relation.ReflTransGen (adjStep adj) s j) ∧
        (∀ a rest0, q = a :: rest0 → ∃ t, cl₂ = a :: t) ∧
        ((∀ x, visAt v x = true → x ∈ q ∨ ∀ b ∈ adj.getD x [], visAt v b = true) →
          (∀ x, visAt v' x = true → ∀ b ∈ adj.getD x [], visAt v' b = true)) := by
  induction v, q, cl using bfs.induct adj with
  | case1 v cl =>
    intro res v' h hqv hqnd
    rw [bfs.eq_1] at h
    obtain ⟨rfl, rfl⟩ : cl = res ∧ v = v' := by
      simpa using h
    refine ⟨[], by simp, rfl, by simp, by simp, by simp, by simp, List.nodup_nil,
      by simp, by simp, ?_⟩
    intro hcl x hx b hb
    rcases hcl x hx with hmem | hclosed
    · simp at hmem
    · exact hclosed b hb
  | case2 v current rest cl e hscan =>
    intro res v' h hqv hqnd
    rw [bfs_cons_err adj hscan] at h
    simp at h
  | case3 v current rest cl v₁ q₁ hscan ih =>
    intro res v' h hqv hqnd
    rw [bfs_cons_ok adj hscan] at h
    obtain ⟨hlen1, hns, fresh, hq1, hfnd, hfmem, hiff1, hall1, _⟩ := scanNeighbors_ok hscan
    have hvcur : visAt v current = true := hqv current (List.mem_cons_self ..)
    have hrestv : ∀ x ∈ rest, visAt v x = true :=
      fun x hx => hqv x (List.mem_cons_of_mem _ hx)
    have hrestnd : rest.Nodup := (List.nodup_cons.1 hqnd).2
    have hcurnotin : current ∉ rest := (List.nodup_cons.1 hqnd).1
    have hmono : ∀ j, visAt v j = true → visAt v₁ j = true :=
      fun j hj => (hiff1 j).2 (Or.inl hj)
    have hq1v : ∀ x ∈ q₁, visAt v₁ x = true := by
      intro x hx
      rw [hq1] at hx
      rcases List.mem_append.1 hx with hx | hx
      · exact hmono x (hrestv x hx)
      · exact hall1 x (hfmem x hx).1
    have hq1nd : q₁.Nodup := by
      rw [hq1]
      refine List.Nodup.append hrestnd hfnd ?_
      intro x hx hx'
      have h1 := hrestv x hx
      have h2 := (hfmem x hx').2
      rw [h1] at h2
      exact absurd h2 (by decide)
    obtain ⟨cl₂', hres, hlen', hqsub', hscanned', hiff', hold', hnd', hreach', hshape',
      hclosure'⟩ := ih res v' h hq1v hq1nd
    have hfreshq1 : ∀ x ∈ fresh, x ∈ q₁ := by
      intro x hx
      rw [hq1]
      exact List.mem_append.2 (Or.inr hx)
    have hrestq1 : ∀ x ∈ rest, x ∈ q₁ := by
      intro x hx
      rw [hq1]
      exact List.mem_append.2 (Or.inl hx)
    refine ⟨current :: cl₂', ?_, hlen'.trans hlen1, ?_, ?_, ?_, ?_, ?_, ?_, ?_, ?_⟩
    · rw [hres, List.append_assoc]
      rfl
    · intro x hx
      rcases List.mem_cons.1 hx with rfl | hx
      · exact List.mem_cons_self ..
      · exact List.mem_cons_of_mem _ (hqsub' x (hrestq1 x hx))
    · intro j hj
      rcases List.mem_cons.1 hj with rfl | hj
      · exact hns
      · intro x hx
        exact hlen1 ▸ hscanned' j hj x hx
    · intro j
      constructor
      · intro hj
        rcases (hiff' j).1 hj with hj1 | hj1
        · rcases (hiff1 j).1 hj1 with hj2 | hj2
          · exact Or.inl hj2
          · exact Or.inr (List.mem_cons_of_mem _ (hqsub' j (hfreshq1 j hj2)))
        · exact Or.inr (List.mem_cons_of_mem _ hj1)
      · intro hj
        rcases hj with hj | hj
        · exact (hiff' j).2 (Or.inl (hmono j hj))
        · rcases List.mem_cons.1 hj with rfl | hj
          · exact (hiff' j).2 (Or.inl (hmono j hvcur))
          · exact (hiff' j).2 (Or.inr hj)
    · intro j hj
      rcases List.mem_cons.1 hj with rfl | hj
      · exact Or.inl (List.mem_cons_self ..)
      · rcases hold' j hj with hj1 | hj1
        · rw [hq1] at hj1
          rcases List.mem_append.1 hj1 with hj2 | hj2
          · exact Or.inl (List.mem_cons_of_mem _ hj2)
          · exact Or.inr (hfmem j hj2).2
        · cases hb : visAt v j
          · exact Or.inr rfl
          · exact absurd (hj1 ▸ hmono j hb : (false : Bool) = true) (by decide)
    · refine List.Nodup.cons ?_ hnd'
      intro hcur
      rcases hold' current hcur with hj1 | hj1
      · rw [hq1] at hj1
        rcases List.mem_append.1 hj1 with hj2 | hj2
        · exact hcurnotin hj2
        · have h2 := (hfmem current hj2).2
          rw [hvcur] at h2
          exact absurd h2 (by decide)
      · have h2 := hmono current hvcur
        rw [hj1] at h2
        exact absurd h2 (by decide)
    · intro j hj
      rcases List.mem_cons.1 hj with rfl | hj
      · exact ⟨j, List.mem_cons_self .., Relation.ReflTransGen.refl⟩
      · obtain ⟨s, hs, hpath⟩ := hreach' j hj
        rw [hq1] at hs
        rcases List.mem_append.1 hs with hs | hs
        · exact ⟨s, List.mem_cons_of_mem _ hs, hpath⟩
        · refine ⟨current, List.mem_cons_self .., ?_⟩
          exact Relation.ReflTransGen.head ((hfmem s hs).1 : adjStep adj current s) hpath
    · intro a rest0 heq
      obtain ⟨rfl, rfl⟩ : a = current ∧ rest0 = rest := by
        constructor <;> [exact (List.cons.inj heq.symm).1; exact (List.cons.inj heq.symm).2]
      exact ⟨cl₂', rfl⟩
    · intro hcl
      refine hclosure' ?_
      intro x hx
      rcases (hiff1 x).1 hx with hx1 | hx1
      · rcases hcl x hx1 with hx2 | hx2
        · rcases List.mem_cons.1 hx2 with rfl | hx2
          · exact Or.inr (fun b hb => hall1 b hb)
          · exact Or.inl (hrestq1 x hx2)
        · exact Or.inr (fun b hb => hmono b (hx2 b hb))
      · exact Or.inl (hfreshq1 x hx1)

/-- A BFS run on a well-formed adjacency structure never aborts. -/
theorem bfs_total (adj : List (List Nat))
    (hWF : ∀ l ∈ adj, ∀ x ∈ l, x < adj.length) :
    ∀ (v : List Bool) (q cl : List Nat), v.length = adj.length →
      (∀ x ∈ q, x < adj.length) →
      ∃ res v', bfs adj v q cl = .ok (res, v') := by
  intro v q cl
  induction v, q, cl using bfs.induct adj with
  | case1 v cl =>
    intro _ _
    exact ⟨cl, v, bfs.eq_1 ..⟩
  | case2 v current rest cl e hscan =>
    intro hlen hq
    have hcur : current < adj.length := hq current (List.mem_cons_self ..)
    have hin : ∀ x ∈ adj.getD current [], x < v.length := by
      intro x hx
      rw [hlen]
      exact hWF _ (getD_mem_of_lt adj [] hcur) x hx
    obtain ⟨v', q', hok⟩ := scanNeighbors_total (adj.getD current []) v rest hin
    rw [hok] at hscan
    exact absurd hscan (by simp)
  | case3 v current rest cl v₁ q₁ hscan ih =>
    intro hlen hq
    obtain ⟨hlen1, hns, fresh, hq1, _, hfmem, _, _, _⟩ := scanNeighbors_ok hscan
    have hlen1' : v₁.length = adj.length := hlen1.trans hlen
    have hq1' : ∀ x ∈ q₁, x < adj.length := by
      intro x hx
      rw [hq1] at hx
      rcases List.mem_append.1 hx with hx | hx
      · exact hq x (List.mem_cons_of_mem _ hx)
      · have := hns x (hfmem x hx).1
        rwa [hlen] at this
    obtain ⟨res, v', hres⟩ := ih hlen1' hq1'
    refine ⟨res, v', ?_⟩
    rw [bfs_cons_ok adj hscan]
    exact hres

theorem visAt_set_mono {v : List Bool} {i b : Nat} (h : visAt v b = true) :
    visAt (v.set i true) b = true := by
  by_cases hib : i = b
  · subst hib
    exact visAt_set_self (visAt_lt h)
  · rwa [visAt_set_ne true hib]

theorem ccLoop_cons_vis {adj : List (List Nat)} {v : List Bool} {node : Nat}
    {rest : List Nat} {cls : List (List Nat)} (hvm : visAt v node = true) :
    ccLoop adj (node :: rest) v cls = ccLoop adj rest v cls := by
  simp only [ccLoop, hvm, if_true]

theorem ccLoop_cons_new_ok {adj : List (List Nat)} {v : List Bool} {node : Nat}
    {rest : List Nat} {cls : List (List Nat)} {cluster : List Nat} {v' : List Bool}
    (hvm : visAt v node = false)
    (hbfs : bfs adj (v.set node true) [node] [] = .ok (cluster, v')) :
    ccLoop adj (node :: rest) v cls = ccLoop adj rest v' (cls ++ [cluster]) := by
  simp only [ccLoop, hvm]
  rw [hbfs]
  simp

theorem ccLoop_cons_new_err {adj : List (List Nat)} {v : List Bool} {node : Nat}
    {rest : List Nat} {cls : List (List Nat)} {e : String}
    (hvm : visAt v node = false)
    (hbfs : bfs adj (v.set node true) [node] [] = .error e) :
    ccLoop adj (node :: rest) v cls = .error e := by
  simp only [ccLoop, hvm]
  rw [hbfs]
  simp

theorem scanNeighbors_err_msg (ns : List Nat) (v : List Bool) (q : List Nat) :
    (∃ v' q', scanNeighbors ns v q = .ok (v', q')) ∨
      scanNeighbors ns v q = .error "index out of bounds" := by
  induction ns generalizing v q with
  | nil => exact Or.inl ⟨v, q, rfl⟩
  | cons neighbor rest ih =>
    rw [scanNeighbors]
    by_cases hlt : neighbor < v.length
    · rw [if_pos hlt]
      by_cases hvis : visAt v neighbor = true
      · rw [if_pos hvis]
        exact ih v q
      · rw [if_neg hvis]
        exact ih (v.set neighbor true) (q ++ [neighbor])
    · rw [if_neg hlt]
      exact Or.inr rfl

theorem bfs_err_msg (adj : List (List Nat)) :
    ∀ (v : List Bool) (q cl : List Nat),
      (∃ res v', bfs adj v q cl = .ok (res, v')) ∨
        bfs adj v q cl = .error "index out of bounds" := by
  intro v q cl
  induction v, q, cl using bfs.induct adj with
  | case1 v cl => exact Or.inl ⟨cl, v, bfs.eq_1 ..⟩
  | case2 v current rest cl e hscan =>
    rcases scanNeighbors_err_msg (adj.getD current []) v rest with ⟨v', q', hok⟩ | herr
    · rw [hok] at hscan
      exact absurd hscan (by simp)
    · rw [herr] at hscan
      obtain rfl : e = "index out of bounds" := by
        simpa using hscan.symm
      exact Or.inr (bfs_cons_err adj herr)
  | case3 v current rest cl v₁ q₁ hscan ih =>
    rw [bfs_cons_ok adj hscan]
    exact ih

theorem ccLoop_err_msg (adj : List (List Nat)) :
    ∀ (todo : List Nat) (v : List Bool) (cls : List (List Nat)),
      (∃ res, ccLoop adj todo v cls = .ok res) ∨
        ccLoop adj todo v cls = .error "index out of bounds" := by
  intro todo
  induction todo with
  | nil => exact fun v cls => Or.inl ⟨cls, rfl⟩
  | cons node rest ih =>
    intro v cls
    by_cases hvm : visAt v node = true
    · rw [ccLoop_cons_vis hvm]
      exact ih v cls
    · have hvm' : visAt v node = false := by
        cases hb : visAt v node
        · rfl
        · exact absurd hb hvm
      rcases bfs_err_msg adj (v.set node true) [node] [] with ⟨res, v', hok⟩ | herr
      · rw [ccLoop_cons_new_ok hvm' hok]
        exact ih v' (cls ++ [res])
      · exact Or.inr (ccLoop_cons_new_err hvm' herr)

/-- If the outer loop completes, the neighbour list of every node it reached
as unvisited was fully scanned, hence fully in range. -/
theorem ccLoop_scanned (adj : List (List Nat)) :
    ∀ (todo : List Nat) (v : List Bool) (cls res : List (List Nat)),
      ccLoop adj todo v cls = .ok res →
      v.length = adj.length →
      (∀ x ∈ todo, x < adj.length) →
      ∀ node ∈ todo, visAt v node = false →
        ∀ x ∈ adj.getD node [], x < adj.length := by
  intro todo
  induction todo with
  | nil =>
    intro v cls res _ _ _ node hnode
    simp at hnode
  | cons nd rest ih =>
    intro v cls res h hlen htodo node hnode hnvis
    by_cases hvm : visAt v nd = true
    · rw [ccLoop_cons_vis hvm] at h
      rcases List.mem_cons.1 hnode with rfl | hnode'
      · rw [hnvis] at hvm
        exact absurd hvm (by decide)
      · exact ih v cls res h hlen (fun x hx => htodo x (List.mem_cons_of_mem _ hx))
          node hnode' hnvis
    · have hvm' : visAt v nd = false := by
        cases hb : visAt v nd
        · rfl
        · exact absurd hb hvm
      rcases bfs_err_msg adj (v.set nd true) [nd] [] with ⟨bres, vB, hb⟩ | herr
      · rw [ccLoop_cons_new_ok hvm' hb] at h
        have hndlt : nd < v.length := by
          rw [hlen]
          exact htodo nd (List.mem_cons_self ..)
        obtain ⟨cl₂, hres, hlenB, hqsub, hscanned, hiff, hold, hnd2, hreach, hshape,
          hclosure⟩ := bfs_spec adj (v.set nd true) [nd] [] bres vB hb
          (by
            intro x hx
            rcases List.mem_cons.1 hx with rfl | hx
            · exact visAt_set_self hndlt
            · simp at hx)
          (List.nodup_cons.2 ⟨by simp, List.nodup_nil⟩)
        obtain rfl : bres = cl₂ := by simpa using hres
        have hlenset : (v.set nd true).length = v.length := List.length_set ..
        rcases List.mem_cons.1 hnode with rfl | hnode'
        · intro x hx
          have := hscanned node (hqsub node (List.mem_cons_self ..)) x hx
          rw [hlenset, hlen] at this
          exact this
        · by_cases hvB : visAt vB node = true
          · rcases (hiff node).1 hvB with hv1 | hv1
            · by_cases hne : nd = node
              · subst hne
                intro x hx
                have := hscanned nd (hqsub nd (List.mem_cons_self ..)) x hx
                rw [hlenset, hlen] at this
                exact this
              · rw [visAt_set_ne true hne, hnvis] at hv1
                exact absurd hv1 (by decide)
            · intro x hx
              have := hscanned node hv1 x hx
              rw [hlenset, hlen] at this
              exact this
          · have hvB' : visAt vB node = false := by
              cases hb2 : visAt vB node
              · rfl
              · exact absurd hb2 hvB
            exact ih vB (cls ++ [bres]) res h (hlenB.trans (hlenset.trans hlen))
              (fun x hx => htodo x (List.mem_cons_of_mem _ hx)) node hnode' hvB'
      · rw [ccLoop_cons_new_err hvm' herr] at h
        simp at h

/-- Master invariant of the outer loop over the remaining node range
`range' m k`: it returns, appended to the accumulator, a block of new
clusters that collect exactly the not-yet-visited in-range nodes with no
duplicates, each cluster starting with its smallest member (its BFS seed),
the seeds strictly increasing, every member reachable from the seed, and —
for a symmetric adjacency structure — each cluster closed under adjacency. -/
theorem ccLoop_spec (adj : List (List Nat))
    (hWF : ∀ l ∈ adj, ∀ x ∈ l, x < adj.length) :
    ∀ (k m : Nat) (v : List Bool) (cls : List (List Nat)),
      m + k = adj.length →
      v.length = adj.length →
      (∀ j, j < m → visAt v j = true) →
      (∀ a, visAt v a = true → ∀ b ∈ adj.getD a [], visAt v b = true) →
      ∃ cls₂, ccLoop adj (List.range' m k) v cls = .ok (cls ++ cls₂) ∧
        (∀ j, j ∈ cls₂.flatten ↔ (j < adj.length ∧ visAt v j = false)) ∧
        cls₂.flatten.Nodup ∧
        (∀ c ∈ cls₂, ∃ t, c = c.headD 0 :: t) ∧
        (∀ c ∈ cls₂, ∀ x ∈ c, c.headD 0 ≤ x) ∧
        (∀ c ∈ cls₂, m ≤ c.headD 0) ∧
        List.Pairwise (fun c d => c.headD 0 < d.headD 0) cls₂ ∧
        (∀ c ∈ cls₂, ∀ x ∈ c, Relation.ReflTransGen (adjStep adj) (c.headD 0) x) ∧
        ((∀ i j, j ∈ adj.getD i [] → i ∈ adj.getD j []) →
          ∀ c ∈ cls₂, ∀ a ∈ c, ∀ b ∈ adj.getD a [], b ∈ c) := by
  intro k
  induction k with
  | zero =>
    intro m v cls hmk hvlen hpre hclo
    refine ⟨[], by simp [List.range'_zero, ccLoop], ?_, by simp, by simp, by simp,
      by simp, by simp, by simp, by simp⟩
    intro j
    constructor
    · intro hj
      simp at hj
    · rintro ⟨hjn, hv⟩
      have hj : visAt v j = true := hpre j (by omega)
      rw [hj] at hv
      exact absurd hv (by decide)
  | succ k ih =>
    intro m v cls hmk hvlen hpre hclo
    rw [List.range'_succ]
    by_cases hvm : visAt v m = true
    · obtain ⟨cls₂, hrun, hjoin, hjnd, hshape, hmin, hlow, hpair, hreach, hmax⟩ :=
        ih (m + 1) v cls (by omega) hvlen
          (by
            intro j hj
            rcases Nat.lt_or_ge j m with hj' | hj'
            · exact hpre j hj'
            · have hjm : j = m := by omega
              rw [hjm]
              exact hvm)
          hclo
      refine ⟨cls₂, ?_, hjoin, hjnd, hshape, hmin, ?_, hpair, hreach, hmax⟩
      · rw [ccLoop_cons_vis hvm]
        exact hrun
      · intro c hc
        exact Nat.le_of_succ_le (hlow c hc)
    · have hvm' : visAt v m = false := by
        cases hb : visAt v m
        · rfl
        · exact absurd hb hvm
      have hmlt : m < adj.length := by omega
      have hmltv : m < v.length := by rw [hvlen]; exact hmlt
      obtain ⟨bres, vB, hb⟩ := bfs_total adj hWF (v.set m true) [m] []
        (by rw [List.length_set]; exact hvlen)
        (by
          intro x hx
          rcases List.mem_cons.1 hx with rfl | hx
          · exact hmlt
          · simp at hx)
      obtain ⟨cl₂, hres, hlenB, hqsub, hscanned, hiff, hold, hndB, hreachB, hshapeB,
        hclosureB⟩ := bfs_spec adj (v.set m true) [m] [] bres vB hb
          (by
            intro x hx
            rcases List.mem_cons.1 hx with rfl | hx
            · exact visAt_set_self hmltv
            · simp at hx)
          (List.nodup_cons.2 ⟨by simp, List.nodup_nil⟩)
      obtain rfl : bres = cl₂ := by simpa using hres
      have hlenset : (v.set m true).length = v.length := List.length_set ..
      have hsetm : visAt (v.set m true) m = true := visAt_set_self hmltv
      have hmonoset : ∀ j, visAt v j = true → visAt (v.set m true) j = true :=
        fun j hj => visAt_set_mono hj
      have hmonoB : ∀ j, visAt v j = true → visAt vB j = true :=
        fun j hj => (hiff j).2 (Or.inl (hmonoset j hj))
      have hmB : visAt vB m = true := (hiff m).2 (Or.inl hsetm)
      have hmemB : m ∈ bres := hqsub m (List.mem_cons_self ..)
      have hheadB : bres.headD 0 = m := by
        obtain ⟨t0, ht0⟩ := hshapeB m [] rfl
        rw [ht0]
        rfl
      have hcloset : ∀ x, visAt (v.set m true) x = true →
          x ∈ [m] ∨ ∀ b ∈ adj.getD x [], visAt (v.set m true) b = true := by
        intro x hx
        by_cases hxm : x = m
        · exact Or.inl (by simp [hxm])
        · rw [visAt_set_ne true (fun hh => hxm hh.symm)] at hx
          exact Or.inr (fun b hb => hmonoset b (hclo x hx b hb))
      have hcloB : ∀ x, visAt vB x = true → ∀ b ∈ adj.getD x [], visAt vB b = true :=
        hclosureB hcloset
      have hmemBres : ∀ j, j ∈ bres → j = m ∨ (visAt v j = false ∧ j ≠ m) := by
        intro j hj
        rcases hold j hj with hj1 | hj1
        · exact Or.inl (by simpa using hj1)
        · by_cases hjm : j = m
          · exact Or.inl hjm
          · rw [visAt_set_ne true (fun hh => hjm hh.symm)] at hj1
            exact Or.inr ⟨hj1, hjm⟩
      have hBvis : ∀ j ∈ bres, visAt vB j = true := fun j hj => (hiff j).2 (Or.inr hj)
      have hBlt : ∀ j ∈ bres, j < adj.length := by
        intro j hj
        have hlt2 := visAt_lt (hBvis j hj)
        rwa [hlenB.trans (hlenset.trans hvlen)] at hlt2
      obtain ⟨cls₂', hrun', hjoin', hjnd', hshape', hmin', hlow', hpair', hreach',
        hmax'⟩ :=
        ih (m + 1) vB (cls ++ [bres]) (by omega)
          (hlenB.trans (hlenset.trans hvlen))
          (by
            intro j hj
            rcases Nat.lt_or_ge j m with hj' | hj'
            · exact hmonoB j (hpre j hj')
            · have hjm : j = m := by omega
              rw [hjm]
              exact hmB)
          hcloB
      refine ⟨bres :: cls₂', ?_, ?_, ?_, ?_, ?_, ?_, ?_, ?_, ?_⟩
      · rw [ccLoop_cons_new_ok hvm' hb, hrun', List.append_assoc]
        rfl
      · intro j
        rw [List.flatten_cons]
        constructor
        · intro hj
          rcases List.mem_append.1 hj with hj | hj
          · refine ⟨hBlt j hj, ?_⟩
            rcases hmemBres j hj with rfl | ⟨hfalse, _⟩
            · exact hvm'
            · exact hfalse
          · obtain ⟨hjn, hjB⟩ := (hjoin' j).1 hj
            refine ⟨hjn, ?_⟩
            cases hbv : visAt v j
            · rfl
            · have hmb := hmonoB j hbv
              rw [hjB] at hmb
              exact absurd hmb (by decide)
        · rintro ⟨hjn, hjv⟩
          by_cases hjB : visAt vB j = true
          · rcases (hiff j).1 hjB with hj1 | hj1
            · by_cases hjm : j = m
              · subst hjm
                exact List.mem_append.2 (Or.inl hmemB)
              · rw [visAt_set_ne true (fun hh => hjm hh.symm), hjv] at hj1
                exact absurd hj1 (by decide)
            · exact List.mem_append.2 (Or.inl hj1)
          · have hjB' : visAt vB j = false := by
              cases hb2 : visAt vB j
              · rfl
              · exact absurd hb2 hjB
            exact List.mem_append.2 (Or.inr ((hjoin' j).2 ⟨hjn, hjB'⟩))
      · rw [List.flatten_cons]
        refine List.Nodup.append hndB hjnd' ?_
        intro x hx hx'
        have h1 := hBvis x hx
        have h2 := ((hjoin' x).1 hx').2
        rw [h1] at h2
        exact absurd h2 (by decide)
      · intro c hc
        rcases List.mem_cons.1 hc with rfl | hc
        · obtain ⟨t, ht⟩ := hshapeB m [] rfl
          refine ⟨t, ?_⟩
          rw [hheadB]
          exact ht
        · exact hshape' c hc
      · intro c hc x hx
        rcases List.mem_cons.1 hc with rfl | hc
        · rw [hheadB]
          rcases hmemBres x hx with rfl | ⟨hfalse, _⟩
          · exact Nat.le_refl _
          · by_contra hlt2
            have hxm : x < m := by omega
            have hpx := hpre x hxm
            rw [hfalse] at hpx
            exact absurd hpx (by decide)
        · exact hmin' c hc x hx
      · intro c hc
        rcases List.mem_cons.1 hc with rfl | hc
        · rw [hheadB]
        · exact Nat.le_of_succ_le (hlow' c hc)
      · refine List.pairwise_cons.2 ⟨?_, hpair'⟩
        intro d hd
        rw [hheadB]
        exact Nat.lt_of_lt_of_le (Nat.lt_succ_self m) (hlow' d hd)
      · intro c hc x hx
        rcases List.mem_cons.1 hc with rfl | hc
        · rw [hheadB]
          obtain ⟨s, hs, hpath⟩ := hreachB x hx
          obtain rfl : s = m := by simpa using hs
          exact hpath
        · exact hreach' c hc x hx
      · intro hsym c hc a ha b hbadj
        rcases List.mem_cons.1 hc with rfl | hc
        · have hvBa : visAt vB a = true := hBvis a ha
        
          have hvBb : visAt vB b = true := hcloB a hvBa b hbadj
          rcases (hiff b).1 hvBb with hb1 | hb1
          · by_cases hbm : b = m
            · subst hbm
              exact hmemB
            · rw [visAt_set_ne true (fun hh => hbm hh.symm)] at hb1
              have hva : visAt v a = true := hclo b hb1 a (hsym a b hbadj)
              rcases hmemBres a ha with rfl | ⟨hafalse, _⟩
              · rw [hvm'] at hva
                exact absurd hva (by decide)
              · rw [hafalse] at hva
                exact absurd hva (by decide)
          · exact hb1
        · exact hmax' hsym c hc a ha b hbadj

/-- All facts established about a complete `find_connected_components` run
on a well-formed adjacency structure. -/
theorem fcc_spec (adj : List (List Nat))
    (hWF : ∀ l ∈ adj, ∀ x ∈ l, x < adj.length) :
    ∃ cls, find_connected_components adj = .ok cls ∧
      (∀ j, j ∈ cls.flatten ↔ j < adj.length) ∧
      cls.flatten.Nodup ∧
      (∀ c ∈ cls, ∃ t, c = c.headD 0 :: t) ∧
      (∀ c ∈ cls, ∀ x ∈ c, c.headD 0 ≤ x) ∧
      List.Pairwise (fun c d => c.headD 0 < d.headD 0) cls ∧
      (∀ c ∈ cls, ∀ x ∈ c, Relation.ReflTransGen (adjStep adj) (c.headD 0) x) ∧
      ((∀ i j, j ∈ adj.getD i [] → i ∈ adj.getD j []) →
        ∀ c ∈ cls, ∀ a ∈ c, ∀ b ∈ adj.getD a [], b ∈ c) := by
  obtain ⟨cls₂, hrun, hjoin, hjnd, hshape, hmin, _, hpair, hreach, hmax⟩ :=
    ccLoop_spec adj hWF adj.length 0 (List.replicate adj.length false) []
      (by omega) (List.length_replicate ..)
      (fun j hj => absurd hj (Nat.not_lt_zero j))
      (by
        intro a ha
        rw [visAt_replicate] at ha
        exact absurd ha (by decide))
  refine ⟨cls₂, ?_, ?_, hjnd, hshape, hmin, hpair, hreach, hmax⟩
  · simp only [find_connected_components, List.range_eq_range']
    simpa using hrun
  · intro j
    rw [hjoin j]
    simp [visAt_replicate]

/-- C1: for every adjacency structure whose neighbour lists contain only
in-range indices, `find_connected_components` succeeds and the concatenation
of the returned clusters contains every index in `{0, …, N-1}` exactly once
(it is a permutation of `range N`); for the empty structure the returned
cluster list is empty. -/
theorem clusters_partition_range (adj : List (List Nat))
    (hWF : ∀ l ∈ adj, ∀ x ∈ l, x < adj.length) :
    (∃ cls, find_connected_components adj = .ok cls ∧
      cls.flatten.Perm (List.range adj.length)) ∧
    (adj = [] → find_connected_components adj = .ok []) := by
  obtain ⟨cls, hrun, hjoin, hjnd, _⟩ := fcc_spec adj hWF
  constructor
  · refine ⟨cls, hrun, ?_⟩
    rw [List.perm_ext_iff_of_nodup hjnd (List.nodup_range _)]
    intro a
    rw [hjoin a, List.mem_range]
  · rintro rfl
    rfl

theorem clusters_partition_range_witness :
    (∃ cls, find_connected_components [[1], [0, 2], [1], []] = .ok cls ∧
      cls.flatten.Perm (List.range 4)) ∧
    (([[1], [0, 2], [1], []] : List (List Nat)) = [] →
      find_connected_components [[1], [0, 2], [1], []] = .ok []) :=
  clusters_partition_range [[1], [0, 2], [1], []] (by decide)

/-- C6: `find_connected_components` is deterministic in its ordering — each
returned cluster begins with its smallest member (the BFS seed), clusters
are listed in ascending order of those smallest members, and two runs on
the same structure give the same result. -/
theorem components_deterministic_order (adj : List (List Nat))
    (hWF : ∀ l ∈ adj, ∀ x ∈ l, x < adj.length) :
    (∃ cls, find_connected_components adj = .ok cls ∧
      (∀ c ∈ cls, ∃ t, c = c.headD 0 :: t) ∧
      (∀ c ∈ cls, ∀ x ∈ c, c.headD 0 ≤ x) ∧
      List.Pairwise (fun c d => c.headD 0 < d.headD 0) cls) ∧
    find_connected_components adj = find_connected_components adj := by
  obtain ⟨cls, hrun, _, _, hshape, hmin, hpair, _, _⟩ := fcc_spec adj hWF
  exact ⟨⟨cls, hrun, hshape, hmin, hpair⟩, rfl⟩

theorem components_deterministic_order_witness :
    (∃ cls, find_connected_components [[3], [2], [1], [0]] = .ok cls ∧
      (∀ c ∈ cls, ∃ t, c = c.headD 0 :: t) ∧
      (∀ c ∈ cls, ∀ x ∈ c, c.headD 0 ≤ x) ∧
      List.Pairwise (fun c d => c.headD 0 < d.headD 0) cls) ∧
    find_connected_components [[3], [2], [1], [0]] =
      find_connected_components [[3], [2], [1], [0]] :=
  components_deterministic_order [[3], [2], [1], [0]] (by decide)

/-- C3: on a well-formed (in-range, symmetric) adjacency structure every
returned cluster is a connected component: any two members are joined by a
path of edges, and every node adjacent to a member belongs to the cluster
(maximality); in particular the three-node chain `[[1], [0, 2], [1]]`
yields the single cluster `[0, 1, 2]`. -/
theorem clusters_are_connected_components (adj : List (List Nat))
    (hWF : ∀ l ∈ adj, ∀ x ∈ l, x < adj.length)
    (hsym : ∀ i j, j ∈ adj.getD i [] → i ∈ adj.getD j []) :
    (∃ cls, find_connected_components adj = .ok cls ∧
      (∀ c ∈ cls, ∀ a ∈ c, ∀ b ∈ c, Relation.ReflTransGen (adjStep adj) a b) ∧
      (∀ c ∈ cls, ∀ a ∈ c, ∀ b, adjStep adj a b → b ∈ c)) ∧
    find_connected_components [[1], [0, 2], [1]] = .ok [[0, 1, 2]] := by
  constructor
  · obtain ⟨cls, hrun, _, _, _, _, _, hreach, hmax⟩ := fcc_spec adj hWF
    have hsymR : Symmetric (adjStep adj) := fun x y hxy => hsym x y hxy
    refine ⟨cls, hrun, ?_, ?_⟩
    · intro c hc a ha b hb
      have hra := hreach c hc a ha
      have hrb := hreach c hc b hb
      exact (Relation.ReflTransGen.symmetric hsymR hra).trans hrb
    · intro c hc a ha b hb
      exact hmax hsym c hc a ha b hb
  · simp [find_connected_components, ccLoop, bfs, scanNeighbors, visAt]

theorem clusters_are_connected_components_witness :
    (∃ cls, find_connected_components [[1], [0, 2], [1]] = .ok cls ∧
      (∀ c ∈ cls, ∀ a ∈ c, ∀ b ∈ c,
        Relation.ReflTransGen (adjStep [[1], [0, 2], [1]]) a b) ∧
      (∀ c ∈ cls, ∀ a ∈ c, ∀ b, adjStep [[1], [0, 2], [1]] a b → b ∈ c)) ∧
    find_connected_components [[1], [0, 2], [1]] = .ok [[0, 1, 2]] :=
  clusters_are_connected_components [[1], [0, 2], [1]] (by decide)
    (by
      intro i j hj
      have hi : i < 3 := by
        by_contra hge
        rw [List.getD_eq_default _ _ (by simpa using Nat.le_of_not_lt hge)] at hj
        simp at hj
      interval_cases i <;> simp_all <;> rcases hj with rfl | rfl <;> decide)

/-- C5 counterexample: on the malformed structure `[[1]]` (neighbour `1` is
out of range for a single-node graph) the call aborts with the generic
bounds-check panic of the `visited[neighbor]` read — the surfaced error is
"index out of bounds", not a distinct "malformed adjacency structure"
error. -/
theorem oob_generic_panic_not_distinct_error :
    find_connected_components [[1]] = .error "index out of bounds" ∧
    find_connected_components [[1]] ≠ .error "malformed adjacency structure" := by
  have h : find_connected_components [[1]] = .error "index out of bounds" := by
    simp [find_connected_components, ccLoop, bfs, scanNeighbors, visAt]
  refine ⟨h, ?_⟩
  rw [h]
  intro hcon
  have := Except.error.inj hcon
  simp at this

/-- C5 (amended): if any neighbour list of the adjacency structure contains
an out-of-range index, `find_connected_components` aborts and surfaces an
error — the generic index-out-of-bounds panic of the bounds-checked
`visited[neighbor]` read — instead of performing an out-of-bounds access or
returning a (possibly corrupted) cluster list; the error is not a distinct
"malformed adjacency structure" error. -/
theorem oob_neighbor_aborts_with_bounds_panic (adj : List (List Nat))
    (h : ∃ l ∈ adj, ∃ x ∈ l, adj.length ≤ x) :
    find_connected_components adj = .error "index out of bounds" := by
  rcases ccLoop_err_msg adj (List.range adj.length)
      (List.replicate adj.length false) [] with ⟨res, hok⟩ | herr
  · exfalso
    obtain ⟨l, hl, x, hx, hge⟩ := h
    obtain ⟨i, hi, rfl⟩ := List.mem_iff_getElem.1 hl
    have hgd : adj.getD i [] = adj[i] := List.getD_eq_getElem adj [] hi
    have hlt := ccLoop_scanned adj (List.range adj.length)
      (List.replicate adj.length false) [] res hok (List.length_replicate ..)
      (fun y hy => List.mem_range.1 hy) i (List.mem_range.2 hi)
      (visAt_replicate ..) x (by rw [hgd]; exact hx)
    omega
  · simp only [find_connected_components]
    exact herr

theorem oob_neighbor_aborts_with_bounds_panic_witness :
    find_connected_components [[2], []] = .error "index out of bounds" :=
  oob_neighbor_aborts_with_bounds_panic [[2], []] (by decide)

theorem shared_attributes_comm (a b : Freelancer) :
    shared_attributes a b = shared_attributes b a := by
  have e1 : (b.job_category = a.job_category) ↔ (a.job_category = b.job_category) :=
    eq_comm
  have e2 : (b.platform = a.platform) ↔ (a.platform = b.platform) := eq_comm
  have e3 : (b.client_region = a.client_region) ↔ (a.client_region = b.client_region) :=
    eq_comm
  have e4 : (b.experience_level = a.experience_level) ↔
      (a.experience_level = b.experience_level) := eq_comm
  simp only [shared_attributes, e1, e2, e3, e4]

/-- C8: the similarity score is symmetric in its two arguments. -/
theorem score_symmetric (a b : Freelancer) :
    shared_attributes a b = shared_attributes b a :=
  shared_attributes_comm a b

/-- C4: the similarity score is the sum of the per-attribute weights
(0.30 job-category, 0.25 platform, 0.25 client-region, 0.20
experience-level) of exactly the string-equal attributes, it always lies in
`[0, 1]`, and two empty-string values compare equal and contribute their
weight (two records empty in job-category and platform but differing in the
other fields score 0.30 + 0.25 = 0.55). -/
theorem score_weight_additive_and_bounded (a b : Freelancer) :
    shared_attributes a b =
      (if a.job_category = b.job_category then (0.3 : ℚ) else 0) +
      (if a.platform = b.platform then (0.25 : ℚ) else 0) +
      (if a.client_region = b.client_region then (0.25 : ℚ) else 0) +
      (if a.experience_level = b.experience_level then (0.2 : ℚ) else 0) ∧
    0 ≤ shared_attributes a b ∧ shared_attributes a b ≤ 1 ∧
    shared_attributes
      { id := 0, job_category := "", platform := "", client_region := "North",
        experience_level := "Expert", earnings_usd := 10, hourly_rate := 3 }
      { id := 1, job_category := "", platform := "", client_region := "South",
        experience_level := "Beginner", earnings_usd := 20, hourly_rate := 7 }
      = 0.55 := by
  refine ⟨?_, ?_, ?_, ?_⟩
  · simp only [shared_attributes]
    split_ifs <;> norm_num
  · simp only [shared_attributes]
    split_ifs <;> norm_num
  · simp only [shared_attributes]
    split_ifs <;> norm_num
  · have h1 : ("North" : String) ≠ "South" := by decide
    have h2 : ("Expert" : String) ≠ "Beginner" := by decide
    norm_num [shared_attributes, h1, h2]

/-- C9: the similarity score reads only the four categorical attributes —
replacing `id`, `earnings_usd` and `hourly_rate` of either record by
arbitrary values leaves the score unchanged (noninterference with respect to
the identity and performance fields). -/
theorem score_ignores_performance_fields (a b : Freelancer)
    (i₁ i₂ : Nat) (e₁ e₂ r₁ r₂ : ℚ) :
    shared_attributes
      { a with id := i₁, earnings_usd := e₁, hourly_rate := r₁ }
      { b with id := i₂, earnings_usd := e₂, hourly_rate := r₂ } =
    shared_attributes a b := rfl

theorem getD_set_eq {α : Type} (l : List α) (i : Nat) (a d : α) (h : i < l.length) :
    (l.set i a).getD i d = a := by
  rw [List.getD_eq_getElem?_getD, List.getElem?_set_self h]
  rfl

theorem getD_set_ne {α : Type} (l : List α) {i j : Nat} (a d : α) (h : i ≠ j) :
    (l.set i a).getD j d = l.getD j d := by
  rw [List.getD_eq_getElem?_getD, List.getElem?_set_ne h, ← List.getD_eq_getElem?_getD]

theorem pushAt_length (adj : List (List Nat)) (k v : Nat) :
    (pushAt adj k v).length = adj.length :=
  List.length_set ..

theorem pushAt_getD_self {adj : List (List Nat)} {k : Nat} (v : Nat)
    (h : k < adj.length) : (pushAt adj k v).getD k [] = adj.getD k [] ++ [v] :=
  getD_set_eq adj k _ [] h

theorem pushAt_getD_ne {adj : List (List Nat)} {k k' : Nat} (v : Nat) (h : k ≠ k') :
    (pushAt adj k v).getD k' [] = adj.getD k' [] :=
  getD_set_ne adj _ [] h

/-- The body of the inner loop of `build_collaboration_graph`, phrased on an
unordered-pair argument. -/
def buildStep (fr : List Freelancer) (adj : List (List Nat)) (p : Nat × Nat) :
    List (List Nat) :=
  if shared_attributes (fr.getD p.1 default) (fr.getD p.2 default) > 0.7 then
    pushAt (pushAt adj p.1 p.2) p.2 p.1
  else adj

/-- The sequence of index pairs `(i, j)`, `i < j < n`, in the order the
double loop of `build_collaboration_graph` evaluates them. -/
def pairsUpTo (n : Nat) : List (Nat × Nat) :=
  (List.range n).flatMap (fun i => (List.range' (i + 1) (n - (i + 1))).map (Prod.mk i))

theorem foldl_foldl_eq_foldl_pairs {α β γ : Type} (g : γ → α × β → γ) (f : α → List β)
    (l : List α) (init : γ) :
    l.foldl (fun acc i => (f i).foldl (fun acc j => g acc (i, j)) acc) init
      = (l.flatMap (fun i => (f i).map (Prod.mk i))).foldl g init := by
  induction l generalizing init with
  | nil => rfl
  | cons i rest ih =>
    rw [List.flatMap_cons, List.foldl_append, List.foldl_map, List.foldl_cons]
    exact ih _

theorem build_eq_pairs (fr : List Freelancer) :
    build_collaboration_graph fr =
      (pairsUpTo fr.length).foldl (buildStep fr) (List.replicate fr.length []) := by
  unfold build_collaboration_graph pairsUpTo buildStep
  exact foldl_foldl_eq_foldl_pairs
    (fun adj p =>
      if shared_attributes (fr.getD p.1 default) (fr.getD p.2 default) > 0.7 then
        pushAt (pushAt adj p.1 p.2) p.2 p.1
      else adj)
    (fun i => List.range' (i + 1) (fr.length - (i + 1)))
    (List.range fr.length) (List.replicate fr.length [])

theorem pairsUpTo_mem {n : Nat} {p : Nat × Nat} (hp : p ∈ pairsUpTo n) :
    p.1 < n ∧ p.2 < n ∧ p.1 < p.2 := by
  unfold pairsUpTo at hp
  rw [List.mem_flatMap] at hp
  obtain ⟨i, hi, hp⟩ := hp
  rw [List.mem_map] at hp
  obtain ⟨j, hj, rfl⟩ := hp
  rw [List.mem_range] at hi
  rw [List.mem_range'_1] at hj
  refine ⟨hi, ?_, hj.1⟩
  have := hj.2
  omega

/-- Effect of one `buildStep` on one neighbour list. -/
theorem buildStep_getD (fr : List Freelancer) (adj : List (List Nat)) (p : Nat × Nat)
    (h1 : p.1 < adj.length) (h2 : p.2 < adj.length) (hne : p.1 ≠ p.2) (k : Nat) :
    (buildStep fr adj p).length = adj.length ∧
    (buildStep fr adj p).getD k [] =
      adj.getD k [] ++
        (if shared_attributes (fr.getD p.1 default) (fr.getD p.2 default) > 0.7 then
          (if p.1 = k then [p.2] else if p.2 = k then [p.1] else [])
        else []) := by
  unfold buildStep
  by_cases hcond : shared_attributes (fr.getD p.1 default) (fr.getD p.2 default) > 0.7
  · rw [if_pos hcond, if_pos hcond]
    refine ⟨by rw [pushAt_length, pushAt_length], ?_⟩
    by_cases hk1 : p.1 = k
    · rw [if_pos hk1]
      subst hk1
      rw [pushAt_getD_ne _ (fun hh => hne hh.symm), pushAt_getD_self _ h1]
    · rw [if_neg hk1]
      by_cases hk2 : p.2 = k
      · rw [if_pos hk2]
        subst hk2
        rw [pushAt_getD_self _ (by rw [pushAt_length]; exact h2),
          pushAt_getD_ne _ hne]
      · rw [if_neg hk2]
        rw [pushAt_getD_ne _ hk2, pushAt_getD_ne _ hk1, List.append_nil]
  · rw [if_neg hcond, if_neg hcond, List.append_nil]
    exact ⟨rfl, rfl⟩

/-- Accumulated effect of folding `buildStep` over a pair list: list `k`
receives, in order, one entry per processed pair that touches `k`. -/
theorem foldl_buildStep_getD (fr : List Freelancer) :
    ∀ (ps : List (Nat × Nat)) (adj : List (List Nat)),
      (∀ p ∈ ps, p.1 < adj.length ∧ p.2 < adj.length ∧ p.1 ≠ p.2) →
      (ps.foldl (buildStep fr) adj).length = adj.length ∧
      ∀ k, (ps.foldl (buildStep fr) adj).getD k [] =
        adj.getD k [] ++ ps.flatMap (fun p =>
          if shared_attributes (fr.getD p.1 default) (fr.getD p.2 default) > 0.7 then
            (if p.1 = k then [p.2] else if p.2 = k then [p.1] else [])
          else []) := by
  intro ps
  induction ps with
  | nil =>
    intro adj _
    exact ⟨rfl, fun k => by simp⟩
  | cons p rest ih =>
    intro adj hps
    obtain ⟨h1, h2, hne⟩ := hps p (List.mem_cons_self ..)
    have hstepk := buildStep_getD fr adj p h1 h2 hne
    have hlenstep : (buildStep fr adj p).length = adj.length := (hstepk 0).1
    have hrest : ∀ q ∈ rest, q.1 < (buildStep fr adj p).length ∧
        q.2 < (buildStep fr adj p).length ∧ q.1 ≠ q.2 := by
      intro q hq
      obtain ⟨hq1, hq2, hq3⟩ := hps q (List.mem_cons_of_mem _ hq)
      rw [hlenstep]
      exact ⟨hq1, hq2, hq3⟩
    obtain ⟨hlen', hget'⟩ := ih (buildStep fr adj p) hrest
    refine ⟨by rw [List.foldl_cons, hlen', hlenstep], ?_⟩
    intro k
    rw [List.foldl_cons, hget' k, (hstepk k).2, List.flatMap_cons, List.append_assoc]

theorem getD_replicate {α : Type} (n k : Nat) (x : α) :
    (List.replicate n x).getD k x = x := by
  induction n generalizing k with
  | zero => cases k <;> rfl
  | succ m ih =>
    cases k with
    | zero => rfl
    | succ i => simpa [List.replicate_succ] using ih i

theorem flatMap_congr {α β : Type} {l : List α} {f g : α → List β}
    (h : ∀ a ∈ l, f a = g a) : l.flatMap f = l.flatMap g := by
  induction l with
  | nil => rfl
  | cons a t ih =>
    rw [List.flatMap_cons, List.flatMap_cons, h a (List.mem_cons_self ..),
      ih (fun x hx => h x (List.mem_cons_of_mem _ hx))]

theorem flatMap_if_mem (l : List Nat) (P : Nat → Prop) [DecidablePred P] :
    l.flatMap (fun j => if P j then [j] else []) = l.filter (fun j => decide (P j)) := by
  induction l with
  | nil => rfl
  | cons a t ih =>
    by_cases h : P a <;> simp [List.filter_cons, h, ih]

theorem flatMap_eq_single {l : List Nat} (hnd : l.Nodup) (k : Nat) (c : List Nat) :
    l.flatMap (fun j => if j = k then c else []) = if k ∈ l then c else [] := by
  induction l with
  | nil => simp
  | cons a t ih =>
    have hand := List.nodup_cons.1 hnd
    rw [List.flatMap_cons, ih hand.2]
    by_cases hak : a = k
    · subst hak
      simp [hand.1]
    · have hka : ¬(k = a) := fun hh => hak hh.symm
      simp [hak, List.mem_cons, hka]

/-- Contribution of pair-row `i` (with `i ≠ k`) to neighbour list `k`. -/
theorem buildRow_ne (fr : List Freelancer) {n i k : Nat} (hin : i < n) (hik : i ≠ k)
    (hkn : k < n) :
    (List.range' (i + 1) (n - (i + 1))).flatMap (fun j =>
        if shared_attributes (fr.getD i default) (fr.getD j default) > 0.7 then
          (if i = k then [j] else if j = k then [i] else [])
        else []) =
      if i < k ∧ shared_attributes (fr.getD i default) (fr.getD k default) > 0.7
      then [i] else [] := by
  have hcongr : ∀ j ∈ List.range' (i + 1) (n - (i + 1)),
      (if shared_attributes (fr.getD i default) (fr.getD j default) > 0.7 then
        (if i = k then [j] else if j = k then [i] else [])
      else []) =
      (if j = k then
        (if shared_attributes (fr.getD i default) (fr.getD k default) > 0.7 then [i]
        else [])
      else []) := by
    intro j _
    by_cases hjk : j = k
    · rw [hjk]
      simp [hik]
    · simp [hik, hjk]
  rw [flatMap_congr hcongr, flatMap_eq_single (List.nodup_range' ..) k _]
  by_cases hik2 : i < k
  · have hmem : k ∈ List.range' (i + 1) (n - (i + 1)) := by
      rw [List.mem_range'_1]
      omega
    rw [if_pos hmem]
    by_cases hq : shared_attributes (fr.getD i default) (fr.getD k default) > 0.7
    · rw [if_pos hq, if_pos ⟨hik2, hq⟩]
    · rw [if_neg hq, if_neg (fun hc => hq hc.2)]
  · have hmem : k ∉ List.range' (i + 1) (n - (i + 1)) := by
      rw [List.mem_range'_1]
      omega
    rw [if_neg hmem, if_neg (fun hc => hik2 hc.1)]

/-- Contribution of pair-row `k` to neighbour list `k`: its larger linked
partners in ascending order. -/
theorem buildRow_eq (fr : List Freelancer) (n k : Nat) :
    (List.range' (k + 1) (n - (k + 1))).flatMap (fun j =>
        if shared_attributes (fr.getD k default) (fr.getD j default) > 0.7 then
          (if k = k then [j] else if j = k then [k] else [])
        else []) =
      (List.range' (k + 1) (n - (k + 1))).filter (fun j =>
        decide (shared_attributes (fr.getD k default) (fr.getD j default) > 0.7)) := by
  have hcongr : ∀ j ∈ List.range' (k + 1) (n - (k + 1)),
      (if shared_attributes (fr.getD k default) (fr.getD j default) > 0.7 then
        (if k = k then [j] else if j = k then [k] else [])
      else []) =
      (if shared_attributes (fr.getD k default) (fr.getD j default) > 0.7 then [j]
      else []) := by
    intro j _
    simp
  rw [flatMap_congr hcongr, flatMap_if_mem]

/-- Closed form of one neighbour list of the built graph: list `k` holds, in
ascending order, every other index whose record scores strictly above the
threshold against record `k`. -/
theorem build_getD (fr : List Freelancer) {k : Nat} (hk : k < fr.length) :
    (build_collaboration_graph fr).getD k [] =
      (List.range fr.length).filter (fun j =>
        decide (j ≠ k) && decide
          (shared_attributes (fr.getD k default) (fr.getD j default) > 0.7)) := by
  have hbounds : ∀ p ∈ pairsUpTo fr.length,
      p.1 < (List.replicate fr.length ([] : List Nat)).length ∧
      p.2 < (List.replicate fr.length ([] : List Nat)).length ∧ p.1 ≠ p.2 := by
    intro p hp
    obtain ⟨h1, h2, h3⟩ := pairsUpTo_mem hp
    rw [List.length_replicate]
    exact ⟨h1, h2, Nat.ne_of_lt h3⟩
  obtain ⟨hlen, hget⟩ := foldl_buildStep_getD fr (pairsUpTo fr.length) _ hbounds
  rw [build_eq_pairs, hget k, getD_replicate, List.nil_append]
  unfold pairsUpTo
  rw [List.flatMap_assoc]
  simp only [List.flatMap_map]
  have hsplit : List.range fr.length =
      List.range k ++ k :: List.range' (k + 1) (fr.length - (k + 1)) := by
    have h2 := List.range'_append 0 k (fr.length - k) 1
    have h3 : 0 + 1 * k = k := by omega
    have h4 : fr.length - k + k = fr.length := by omega
    rw [h3, h4] at h2
    have h5 : fr.length - k = (fr.length - (k + 1)) + 1 := by omega
    rw [h5, List.range'_succ] at h2
    rw [List.range_eq_range' fr.length, List.range_eq_range' k]
    exact h2.symm
  rw [hsplit, List.flatMap_append, List.flatMap_cons, List.filter_append,
    List.filter_cons]
  have hmid : (if (decide (k ≠ k) && decide
        (shared_attributes (fr.getD k default) (fr.getD k default) > 0.7)) = true then
      k :: (List.range' (k + 1) (fr.length - (k + 1))).filter (fun j =>
        decide (j ≠ k) && decide
          (shared_attributes (fr.getD k default) (fr.getD j default) > 0.7))
    else (List.range' (k + 1) (fr.length - (k + 1))).filter (fun j =>
        decide (j ≠ k) && decide
          (shared_attributes (fr.getD k default) (fr.getD j default) > 0.7))) =
      (List.range' (k + 1) (fr.length - (k + 1))).filter (fun j =>
        decide (j ≠ k) && decide
          (shared_attributes (fr.getD k default) (fr.getD j default) > 0.7)) := by
    simp
  rw [hmid]
  have hpart1 : (List.range k).flatMap (fun i =>
      (List.range' (i + 1) (fr.length - (i + 1))).flatMap (fun j =>
        if shared_attributes (fr.getD i default) (fr.getD j default) > 0.7 then
          (if i = k then [j] else if j = k then [i] else [])
        else [])) =
      (List.range k).filter (fun j =>
        decide (j ≠ k) && decide
          (shared_attributes (fr.getD k default) (fr.getD j default) > 0.7)) := by
    have hc1 : ∀ i ∈ List.range k,
        (List.range' (i + 1) (fr.length - (i + 1))).flatMap (fun j =>
          if shared_attributes (fr.getD i default) (fr.getD j default) > 0.7 then
            (if i = k then [j] else if j = k then [i] else [])
          else []) =
        (if i < k ∧ shared_attributes (fr.getD i default) (fr.getD k default) > 0.7
        then [i] else []) := by
      intro i hi
      rw [List.mem_range] at hi
      exact buildRow_ne fr (Nat.lt_trans hi hk) (Nat.ne_of_lt hi) hk
    rw [flatMap_congr hc1,
      flatMap_if_mem _ (fun i =>
        i < k ∧ shared_attributes (fr.getD i default) (fr.getD k default) > 0.7)]
    refine List.filter_congr ?_
    intro i hi
    rw [List.mem_range] at hi
    have hne : i ≠ k := Nat.ne_of_lt hi
    have hcomm : (shared_attributes (fr.getD i default) (fr.getD k default) > 0.7) ↔
        (shared_attributes (fr.getD k default) (fr.getD i default) > 0.7) := by
      rw [shared_attributes_comm]
    simp [hi, hne]
    simpa [List.getD_eq_getElem?_getD] using hcomm
  have hpart2 : (List.range' (k + 1) (fr.length - (k + 1))).flatMap (fun j =>
      if shared_attributes (fr.getD k default) (fr.getD j default) > 0.7 then
        (if k = k then [j] else if j = k then [k] else [])
      else []) =
      (List.range' (k + 1) (fr.length - (k + 1))).filter (fun j =>
        decide (j ≠ k) && decide
          (shared_attributes (fr.getD k default) (fr.getD j default) > 0.7)) := by
    rw [buildRow_eq fr fr.length k]
    refine List.filter_congr ?_
    intro j hj
    rw [List.mem_range'_1] at hj
    have hne : j ≠ k := by omega
    simp [hne]
  have hpart3 : (List.range' (k + 1) (fr.length - (k + 1))).flatMap (fun i =>
      (List.range' (i + 1) (fr.length - (i + 1))).flatMap (fun j =>
        if shared_attributes (fr.getD i default) (fr.getD j default) > 0.7 then
          (if i = k then [j] else if j = k then [i] else [])
        else [])) = [] := by
    rw [List.flatMap_eq_nil_iff]
    intro i hi
    rw [List.mem_range'_1] at hi
    have hik : i ≠ k := by omega
    have hin : i < fr.length := by omega
    rw [buildRow_ne fr hin hik hk]
    rw [if_neg (fun hc => absurd hc.1 (by omega))]
  rw [hpart1, hpart2, hpart3, List.append_nil]

theorem build_length (fr : List Freelancer) :
    (build_collaboration_graph fr).length = fr.length := by
  have hbounds : ∀ p ∈ pairsUpTo fr.length,
      p.1 < (List.replicate fr.length ([] : List Nat)).length ∧
      p.2 < (List.replicate fr.length ([] : List Nat)).length ∧ p.1 ≠ p.2 := by
    intro p hp
    obtain ⟨h1, h2, h3⟩ := pairsUpTo_mem hp
    rw [List.length_replicate]
    exact ⟨h1, h2, Nat.ne_of_lt h3⟩
  obtain ⟨hlen, _⟩ := foldl_buildStep_getD fr (pairsUpTo fr.length) _ hbounds
  rw [build_eq_pairs, hlen, List.length_replicate]

/-- Membership in a built neighbour list, for arbitrary indices. -/
theorem build_mem (fr : List Freelancer) (i j : Nat) :
    j ∈ (build_collaboration_graph fr).getD i [] ↔
      (i < fr.length ∧ j < fr.length ∧ j ≠ i ∧
        shared_attributes (fr.getD i default) (fr.getD j default) > 0.7) := by
  by_cases hi : i < fr.length
  · rw [build_getD fr hi, List.mem_filter, List.mem_range]
    constructor
    · rintro ⟨hjn, hb⟩
      rw [Bool.and_eq_true, decide_eq_true_iff, decide_eq_true_iff] at hb
      exact ⟨hi, hjn, hb.1, hb.2⟩
    · rintro ⟨_, hjn, hne, hq⟩
      refine ⟨hjn, ?_⟩
      rw [Bool.and_eq_true, decide_eq_true_iff, decide_eq_true_iff]
      exact ⟨hne, hq⟩
  · rw [List.getD_eq_default _ _ (by rw [build_length]; exact Nat.le_of_not_lt hi)]
    simp [hi]

/-- C7: the built adjacency structure is symmetric and self-loop-free —
`j` appears in neighbour list `i` exactly when `i` appears in neighbour
list `j`, and no index appears in its own list. -/
theorem graph_symmetric_no_self_loops (fr : List Freelancer) :
    (∀ i j, j ∈ (build_collaboration_graph fr).getD i [] ↔
      i ∈ (build_collaboration_graph fr).getD j []) ∧
    ∀ i, i ∉ (build_collaboration_graph fr).getD i [] := by
  constructor
  · intro i j
    rw [build_mem, build_mem]
    constructor
    · rintro ⟨hi, hj, hne, hq⟩
      refine ⟨hj, hi, fun hh => hne hh.symm, ?_⟩
      rw [shared_attributes_comm]
      exact hq
    · rintro ⟨hj, hi, hne, hq⟩
      refine ⟨hi, hj, fun hh => hne hh.symm, ?_⟩
      rw [shared_attributes_comm]
      exact hq
  · intro i h
    rw [build_mem] at h
    exact h.2.2.1 rfl

/-- C10: every built neighbour list is strictly increasing — hence sorted
and duplicate-free — and contains only indices below the number of
records. -/
theorem neighbor_lists_sorted_nodup_bounded (fr : List Freelancer) :
    ∀ i, List.Pairwise (· < ·) ((build_collaboration_graph fr).getD i []) ∧
      ((build_collaboration_graph fr).getD i []).Nodup ∧
      ∀ x ∈ (build_collaboration_graph fr).getD i [], x < fr.length := by
  intro i
  by_cases hi : i < fr.length
  · rw [build_getD fr hi]
    refine ⟨List.Pairwise.filter _ (List.pairwise_lt_range _),
      List.Nodup.filter _ (List.nodup_range _), ?_⟩
    intro x hx
    exact List.mem_range.1 (List.mem_filter.1 hx).1
  · rw [List.getD_eq_default _ _ (by rw [build_length]; exact Nat.le_of_not_lt hi)]
    exact ⟨List.Pairwise.nil, List.nodup_nil, by simp⟩

/-- Two records matching on exactly platform, client-region and
experience-level (weights 0.25 + 0.25 + 0.20): similarity exactly 0.7. -/
def recThreshA : Freelancer :=
  { id := 0, job_category := "Web Development", platform := "Upwork",
    client_region := "USA", experience_level := "Expert",
    earnings_usd := 0, hourly_rate := 0 }

/-- Partner record for `recThreshA`, differing only in job-category. -/
def recThreshB : Freelancer :=
  { id := 1, job_category := "Design", platform := "Upwork",
    client_region := "USA", experience_level := "Expert",
    earnings_usd := 0, hourly_rate := 0 }

/-- C2: for `i < j < N`, `build_collaboration_graph` links `i` and `j` (each
appears in the other's neighbour list) exactly when their similarity score
is strictly greater than 0.7; a pair scoring exactly 0.7 — matching on
platform, client-region and experience-level only — is not linked. -/
theorem graph_links_iff_score_above_threshold (fr : List Freelancer) (i j : Nat)
    (hij : i < j) (hjn : j < fr.length) :
    ((j ∈ (build_collaboration_graph fr).getD i [] ∧
      i ∈ (build_collaboration_graph fr).getD j []) ↔
      shared_attributes (fr.getD i default) (fr.getD j default) > 0.7) ∧
    shared_attributes recThreshA recThreshB = 0.7 ∧
    build_collaboration_graph [recThreshA, recThreshB] = [[], []] := by
  have hsc : shared_attributes recThreshA recThreshB = 0.7 := by
    have h1 : ("Web Development" : String) ≠ "Design" := by decide
    norm_num [shared_attributes, recThreshA, recThreshB, h1]
  have hsc2 : shared_attributes recThreshB recThreshA = 0.7 := by
    rw [shared_attributes_comm]
    exact hsc
  refine ⟨?_, hsc, ?_⟩
  · constructor
    · rintro ⟨h1, _⟩
      exact ((build_mem fr i j).1 h1).2.2.2
    · intro hq
      have hin : i < fr.length := Nat.lt_trans hij hjn
      constructor
      · exact (build_mem fr i j).2 ⟨hin, hjn, fun hh => by omega, hq⟩
      · refine (build_mem fr j i).2 ⟨hjn, hin, Nat.ne_of_lt hij, ?_⟩
        rw [shared_attributes_comm]
        exact hq
  · apply List.ext_getElem
    · rw [build_length]
      rfl
    · intro n h1 h2
      have hn2 : n < 2 := by simpa using h2
      have hRHS : ([[], []] : List (List Nat))[n] = [] := by
        interval_cases n <;> rfl
      rw [hRHS, ← List.getD_eq_getElem _ [] h1, List.eq_nil_iff_forall_not_mem]
      intro x hx
      rw [build_mem] at hx
      obtain ⟨hn', hx', hne, hq⟩ := hx
      have hx2 : x < 2 := by simpa using hx'
      interval_cases n <;> interval_cases x
      · exact hne rfl
      · simp only [List.getD_cons_zero, List.getD_cons_succ] at hq
        rw [hsc] at hq
        exact absurd hq (by norm_num)
      · simp only [List.getD_cons_zero, List.getD_cons_succ] at hq
        rw [hsc2] at hq
        exact absurd hq (by norm_num)
      · exact hne rfl

theorem graph_links_iff_score_above_threshold_witness :
    ((1 ∈ (build_collaboration_graph [recThreshA, recThreshA]).getD 0 [] ∧
      0 ∈ (build_collaboration_graph [recThreshA, recThreshA]).getD 1 []) ↔
      shared_attributes ([recThreshA, recThreshA].getD 0 default)
        ([recThreshA, recThreshA].getD 1 default) > 0.7) ∧
    shared_attributes recThreshA recThreshB = 0.7 ∧
    build_collaboration_graph [recThreshA, recThreshB] = [[], []] :=
  graph_links_iff_score_above_threshold [recThreshA, recThreshA] 0 1
    (by decide) (by decide)
